import Mathlib

/-!
Shallow embedding of the ReadingHub content indexer (`generate-index.js`)
and service worker (`sw.js`), with theorems checking the natural-language
specification against the code.

Strings are modelled as `List Char` (`Str`).  JavaScript's `String.trim`
is modelled as trimming of whitespace characters; `localeCompare` without
options is modelled as code-point lexicographic comparison, and
`localeCompare` with `{ numeric: true, sensitivity: 'base' }` as a
numeric-aware, case-insensitive token comparison.  File system effects are
made explicit: file reads yield `Option Str` (`none` = read error) and
directory listings can be marked broken (`readdirSync` throws).
-/

namespace ReadingHub

/-- Strings modelled as lists of characters. -/
abbrev Str := List Char

/-- Lean string literal to model string. -/
def strOf (s : String) : Str := s.toList

/-- Whitespace test modelling the character class trimmed by JS `String.trim`
(space, tab, newline, carriage return, form feed, vertical tab). -/
def isWs (c : Char) : Bool :=
  c = ' ' || c = '\t' || c = '\n' || c = '\r' || c = '\x0c' || c = '\x0b'

/-- Model of JS `String.trim`: remove leading and trailing whitespace. -/
def trimStr (s : Str) : Str :=
  ((s.dropWhile isWs).reverse.dropWhile isWs).reverse

/-- Model of JS `content.split('\n')`. -/
def splitNl : Str → List Str
  | [] => [[]]
  | c :: cs =>
    if c = '\n' then [] :: splitNl cs
    else
      match splitNl cs with
      | [] => [[c]]
      | l :: ls => (c :: l) :: ls

/-- Model of JS `s.startsWith(p)` (`p` read as a character list). -/
def hasLead : Str → Str → Bool
  | [], _ => true
  | _ :: _, [] => false
  | p :: ps, c :: cs => p = c && hasLead ps cs

/-- Model of JS `s.endsWith(p)`. -/
def hasTail (p s : Str) : Bool :=
  hasLead p.reverse s.reverse

/-- Model of Node `path.basename(p)` for slash-separated paths:
the component after the last `/`. -/
def baseName (p : Str) : Str :=
  ((p.reverse.takeWhile (fun c => c ≠ '/'))).reverse

/-- Model of Node `path.basename(p, ext)`: the base name, with `ext`
removed when it is a proper suffix of the base name (Node keeps the name
unchanged when the whole base name equals the extension). -/
def baseNameExt (p ext : Str) : Str :=
  let b := baseName p
  if b ≠ ext && hasTail ext b then b.take (b.length - ext.length) else b

/-- First `# `-heading title in a list of lines, mirroring the `for` loop of
`extractTitle`: trim each line, return the trimmed remainder after the
2-character prefix of the first line starting with `"# "`. -/
def findTitle : List Str → Option Str
  | [] => none
  | line :: rest =>
    let trimmed := trimStr line
    if hasLead (strOf "# ") trimmed then some (trimStr (trimmed.drop 2))
    else findTitle rest

/-- Model of `extractTitle(filePath)` from `generate-index.js`.
`readResult` is the outcome of `fs.readFileSync(filePath, 'utf8')`:
`some content` on success, `none` when reading throws (the `catch` branch).
Both the no-heading fallback and the catch branch return
`path.basename(filePath, '.md')`. -/
def extractTitle (readResult : Option Str) (filePath : Str) : Str :=
  match readResult with
  | some content =>
    match findTitle (splitNl content) with
    | some t => t
    | none => baseNameExt filePath (strOf ".md")
  | none => baseNameExt filePath (strOf ".md")


/-! ## Comparators

`naturalSort(a, b)` is `a.localeCompare(b, undefined, { numeric: true,
sensitivity: 'base' })`: runs of decimal digits compare by numeric value
(and sort before other characters, as in ICU numeric collation), other
characters compare case-insensitively.  The folder comparator
`a.name.localeCompare(b.name)` is modelled as code-point lexicographic
comparison. -/

/-- Three-way comparison of naturals. -/
def natCmp (m n : Nat) : Ordering :=
  if m < n then .lt else if n < m then .gt else .eq

/-- Lexicographic extension of a three-way comparator to lists. -/
def cmpList (cmp : α → α → Ordering) : List α → List α → Ordering
  | [], [] => .eq
  | [], _ :: _ => .lt
  | _ :: _, [] => .gt
  | a :: as, b :: bs =>
    match cmp a b with
    | .eq => cmpList cmp as bs
    | o => o

/-- Code-point comparison of two characters. -/
def charCmp (c d : Char) : Ordering := natCmp c.toNat d.toNat

/-- Model of plain `a.localeCompare(b)`: code-point lexicographic order. -/
def lexCmp (a b : Str) : Ordering := cmpList charCmp a b

/-- Token of the numeric-aware comparison: a digit run (by value) or a
single case-folded character. -/
inductive NatTok where
  | num (n : Nat)
  | ch (c : Char)
deriving DecidableEq, Repr

/-- Tokenizer for the numeric-aware comparison: maximal digit runs become
`num` tokens, other characters case-folded `ch` tokens.  `acc` carries the
value of the digit run currently being read. -/
def natTokens : Option Nat → Str → List NatTok
  | acc, [] =>
    match acc with
    | some n => [.num n]
    | none => []
  | acc, c :: cs =>
    if c.isDigit then natTokens (some ((acc.getD 0) * 10 + (c.toNat - '0'.toNat))) cs
    else
      (match acc with
       | some n => [.num n]
       | none => []) ++ .ch c.toLower :: natTokens none cs

/-- Comparison of tokens: numbers by value and before characters,
characters by case-folded code point. -/
def tokCmp : NatTok → NatTok → Ordering
  | .num m, .num n => natCmp m n
  | .num _, .ch _ => .lt
  | .ch _, .num _ => .gt
  | .ch c, .ch d => natCmp c.toNat d.toNat

/-- Model of `naturalSort(a, b)` from `generate-index.js`:
`a.localeCompare(b, undefined, { numeric: true, sensitivity: 'base' })`. -/
def naturalSort (a b : Str) : Ordering :=
  cmpList tokCmp (natTokens none a) (natTokens none b)


/-! ## Sorting

JS `Array.prototype.sort(cmp)` reorders the array so that it is sorted with
respect to the comparator; it is modelled by insertion sort on the
non-strict relation `cmp a b ≠ gt`. -/

/-- Non-strict order induced by a three-way comparator: the JS sort
postcondition relation (`cmp(a, b) <= 0`). -/
def cmpLe (cmp : α → α → Ordering) (a b : α) : Bool :=
  match cmp a b with
  | .gt => false
  | _ => true

/-- Insert into a sorted list. -/
def insertBy (r : α → α → Bool) (a : α) : List α → List α
  | [] => [a]
  | b :: l => if r a b then a :: b :: l else b :: insertBy r a l

/-- Model of `Array.prototype.sort` with comparator-induced relation `r`. -/
def sortBy (r : α → α → Bool) : List α → List α
  | [] => []
  | a :: l => insertBy r a (sortBy r l)


/-- Sortedness of a list with respect to a boolean relation. -/
def SortedBy (r : α → α → Bool) (l : List α) : Prop :=
  l.Pairwise (fun a b => r a b = true)

/-! ## File system and index model

A directory entry is a file (with `none` content when `readFileSync` on it
throws) or a subdirectory; a subdirectory marked `broken` models one on
which `readdirSync` throws. -/

/-- IndexEntry record pushed into a folder's `files` array. -/
structure IndexEntry where
  name : Str
  path : Str
  title : Str
deriving DecidableEq, Repr

/-- IndexFolder record pushed into the index. -/
structure IndexFolder where
  name : Str
  path : Str
  files : List IndexEntry
deriving DecidableEq, Repr

/-- Directory entry of the modelled file system. -/
inductive Entry where
  | file (name : Str) (content : Option Str)
  | dir (name : Str) (broken : Bool) (children : List Entry)

/-- Name of an entry, as returned by `readdirSync`. -/
def entryName : Entry → Str
  | .file n _ => n
  | .dir n _ _ => n

/-- Model of `entry.isDirectory()`. -/
def isDirEntry : Entry → Bool
  | .file _ _ => false
  | .dir _ _ _ => true

/-- Outcome of `fs.readFileSync` on the entry called `name` inside a
directory with the given children: file content on success, `none` when the
read throws (unreadable file, `EISDIR` on a directory, `ENOENT`). -/
def readFileIn (children : List Entry) (name : Str) : Option Str :=
  match children.find? (fun e => entryName e == name) with
  | some (.file _ c) => c
  | some (.dir _ _ _) => none
  | none => none

/-- Files array of one top-level folder, from the body of the `for` loop of
`generateIndex`: `readdirSync(folderPath)` yields the names of all entries
(without file-type information), filtered by `file.endsWith('.md')` and
sorted with `naturalSort`; each name becomes a record whose `path` is
relative to the content root and whose title is extracted from
`folderName/file`. -/
def folderFiles (folderName : Str) (children : List Entry) : List IndexEntry :=
  let mdFiles := sortBy (cmpLe naturalSort)
    ((children.map entryName).filter (fun n => hasTail (strOf ".md") n))
  mdFiles.map (fun file =>
    { name := file
      path := folderName ++ '/' :: file
      title := extractTitle (readFileIn children file) (folderName ++ '/' :: file) })

/-- The `for` loop of `generateIndex` over the root entries: top-level
directories not starting with `.` are scanned; a folder record is pushed
only when `files.length > 0`; a throwing `readdirSync(folderPath)`
(a broken directory) propagates to the top-level catch. -/
def buildFolders : List Entry → Except Unit (List IndexFolder)
  | [] => .ok []
  | .file _ _ :: rest => buildFolders rest
  | .dir name broken children :: rest =>
    if hasLead (strOf ".") name then buildFolders rest
    else if broken then .error ()
    else
      match buildFolders rest with
      | .error e => .error e
      | .ok folders =>
        let files := folderFiles name children
        if files.length > 0 then
          .ok ({ name := name, path := name, files := files } :: folders)
        else
          .ok folders

/-- Model of `generateIndex()` up to the computation of the sorted index.
`rootBroken` models `readdirSync(CONTENT_DIR)` throwing; `Except.error`
models reaching the top-level `catch`.  The folder list is sorted by
`(a, b) => a.name.localeCompare(b.name)`. -/
def generateIndexResult (rootBroken : Bool) (rootEntries : List Entry) :
    Except Unit (List IndexFolder) :=
  if rootBroken then .error ()
  else
    match buildFolders rootEntries with
    | .error e => .error e
    | .ok index => .ok (sortBy (fun a b => cmpLe lexCmp a.name b.name) index)

/-! ### Serialization, writing, exit status -/

/-- JSON string escaping of one character. -/
def jsonEscapeChar (c : Char) : Str :=
  if c = '"' then ['\\', '"']
  else if c = '\\' then ['\\', '\\']
  else if c = '\n' then ['\\', 'n']
  else if c = '\t' then ['\\', 't']
  else if c = '\r' then ['\\', 'r']
  else [c]

/-- JSON string literal for `s`. -/
def jsonStr (s : Str) : Str := '"' :: (s.flatMap jsonEscapeChar) ++ ['"']

/-- Newline followed by `n` spaces of indentation. -/
def nlIndent (n : Nat) : Str := '\n' :: List.replicate n ' '

/-- One `files` element as pretty-printed by `JSON.stringify(·, null, 2)`. -/
def serializeFileObj (e : IndexEntry) : Str :=
  strOf "\x7b" ++ nlIndent 8
    ++ strOf "\"name\": " ++ jsonStr e.name ++ [','] ++ nlIndent 8
    ++ strOf "\"path\": " ++ jsonStr e.path ++ [','] ++ nlIndent 8
    ++ strOf "\"title\": " ++ jsonStr e.title ++ nlIndent 6 ++ strOf "\x7d"

/-- One folder element as pretty-printed by `JSON.stringify(·, null, 2)`. -/
def serializeFolderObj (f : IndexFolder) : Str :=
  strOf "\x7b" ++ nlIndent 4
    ++ strOf "\"name\": " ++ jsonStr f.name ++ [','] ++ nlIndent 4
    ++ strOf "\"path\": " ++ jsonStr f.path ++ [','] ++ nlIndent 4
    ++ strOf "\"files\": ["
    ++ (match f.files with
        | [] => strOf "]"
        | _ => nlIndent 6
            ++ List.intercalate ([','] ++ nlIndent 6) (f.files.map serializeFileObj)
            ++ nlIndent 4 ++ strOf "]")
    ++ nlIndent 2 ++ strOf "\x7d"

/-- Model of `JSON.stringify(index, null, 2)`: the 2-space pretty-printed
JSON text written to `content/index.json`. -/
def serializeIndex (index : List IndexFolder) : Str :=
  match index with
  | [] => strOf "[]"
  | _ => '[' :: nlIndent 2
      ++ List.intercalate ([','] ++ nlIndent 2) (index.map serializeFolderObj)
      ++ ['\n', ']']

/-- Observable outcome of one `generateIndex()` invocation. -/
structure RunResult where
  exitCode : Nat
  written : Option Str
deriving DecidableEq, Repr

/-- Model of a full `generateIndex()` invocation: on success the serialized
index is written (`writeFileSync(INDEX_FILE, jsonContent)`) and the process
ends with exit code 0; on a scan error the top-level catch runs
`process.exit(1)` and the write is never reached. -/
def runGenerateIndex (rootBroken : Bool) (rootEntries : List Entry) : RunResult :=
  match generateIndexResult rootBroken rootEntries with
  | .ok index => { exitCode := 0, written := some (serializeIndex index) }
  | .error _ => { exitCode := 1, written := none }

/-- Content of `content/index.json` after a run, given its previous content. -/
def indexFileAfter (prev : Option Str) (r : RunResult) : Option Str :=
  match r.written with
  | some s => some s
  | none => prev

/-- Effect of `writeFileSync(INDEX_FILE, s)` on the top level of the content
directory: overwrite the content of the entry named `index.json` when one
exists, otherwise create such a file. -/
def writeIndexFile (rootEntries : List Entry) (s : Str) : List Entry :=
  if rootEntries.any (fun e => entryName e == strOf "index.json") then
    rootEntries.map (fun e =>
      if entryName e == strOf "index.json" then
        match e with
        | .file n _ => .file n (some s)
        | .dir n b c => .dir n b c
      else e)
  else rootEntries ++ [.file (strOf "index.json") (some s)]

/-- Model of the recursive helper `scanDirectory(dirPath)`: present in the
source but never invoked by `generateIndex` (see C4).  Its result mixes
folder items and file items; it is modelled as the list of markdown file
records it would push, tagged with nesting, which suffices to state that
`generateIndex` does not use it. -/
inductive ScanItem where
  | folder (items : List ScanItem)
  | mdFile (name : Str) (path : Str) (title : Str)

/-- Path of entry `n` below the content root, given the relative path of
its parent directory (empty for the content root itself). -/
def joinRel (relPath n : Str) : Str :=
  match relPath with
  | [] => n
  | _ => relPath ++ '/' :: n

/-- Recursive directory scan of `scanDirectory`, relative to `relPath` (the
path of `dirPath` below the content root): hidden directories are skipped
at every depth, other directories are scanned recursively, and files ending
in `.md` are collected with their extracted titles.  Exceptions of
`readdirSync` are not modelled here: the helper is never reached from
`generateIndex` (claim C4). -/
def scanDirectory (relPath : Str) (children : List Entry) : List ScanItem :=
  match children with
  | [] => []
  | .dir n _ grandchildren :: rest =>
    if hasLead (strOf ".") n then scanDirectory relPath rest
    else .folder (scanDirectory (joinRel relPath n) grandchildren)
        :: scanDirectory relPath rest
  | .file n c :: rest =>
    if hasTail (strOf ".md") n then
      .mdFile n (joinRel relPath n) (extractTitle c (joinRel relPath n))
          :: scanDirectory relPath rest
    else scanDirectory relPath rest

/-! ## Service worker model (`sw.js`) -/

/-- Cache store name of the current service worker version. -/
def CACHE_NAME : Str := strOf "reading-hub-v1.0"

/-- Model of the `activate` listener: `caches.keys()` yields `cacheNames`,
and every store whose name differs from `CACHE_NAME` is deleted.  The value
is the list of cache store names that remain. -/
def activateHandler (cacheNames : List Str) : List Str :=
  cacheNames.filter (fun cacheName => cacheName == CACHE_NAME)

/-- Request as seen by the `fetch` listener. -/
structure Request where
  method : Str
  url : Str
  destination : Str

/-- Response snapshot: HTTP status and `response.type`. -/
structure Response where
  status : Nat
  rtype : Str
deriving DecidableEq, Repr

/-- Cache contents: response snapshots keyed by request URL. -/
abbrev Cache := List (Str × Response)

/-- Model of `caches.match(url)`. -/
def cacheMatch (cache : Cache) (url : Str) : Option Response :=
  match cache.find? (fun p => p.fst == url) with
  | some p => some p.snd
  | none => none

/-- Model of `cache.put(url, response)`. -/
def cachePut (cache : Cache) (url : Str) (r : Response) : Cache :=
  (url, r) :: cache.eraseP (fun p => p.fst == url)

/-- Outcome of the network fetch inside the handler. -/
inductive NetResult where
  | ok (r : Response)
  | fail

/-- What the `fetch` listener does with an event: pass it through untouched
(the listener returns before `respondWith`), or respond with the value the
promise chain resolves to (`none` models resolving to `undefined`, the
behaviour the spec describes as an unhandled rejection with no offline
placeholder). -/
inductive FetchOutcome where
  | passThrough
  | responded (r : Option Response)
deriving DecidableEq, Repr

/-- Model of the `fetch` listener: non-GET and cross-origin requests are
not intercepted; otherwise cache-first, then network with caching of
successful basic 200 responses, and on network failure the cached
`/index.html` shell for `document` destinations only. -/
def fetchHandler (origin : Str) (cache : Cache) (req : Request) (net : NetResult) :
    FetchOutcome × Cache :=
  if req.method ≠ strOf "GET" then (.passThrough, cache)
  else if ¬ hasLead origin req.url then (.passThrough, cache)
  else
    match cacheMatch cache req.url with
    | some cachedResponse => (.responded (some cachedResponse), cache)
    | none =>
      match net with
      | .ok response =>
        if response.status ≠ 200 ∨ response.rtype ≠ strOf "basic" then
          (.responded (some response), cache)
        else
          (.responded (some response), cachePut cache req.url response)
      | .fail =>
        if req.destination = strOf "document" then
          (.responded (cacheMatch cache (strOf "/index.html")), cache)
        else
          (.responded none, cache)

/-- Parsed push payload: a JSON object whose `title` and `body` fields may
be absent (`none` models `undefined`). -/
structure PushPayload where
  title : Option Str
  body : Option Str
deriving DecidableEq, Repr

/-- Arguments of the `showNotification` call in the `push` listener. -/
structure NotificationShown where
  title : Option Str
  body : Option Str
  icon : Str
  badge : Str
  vibrate : List Nat
  tag : Str
deriving DecidableEq, Repr

/-- Model of the `push` listener: `const data = event.data.json()` is
evaluated with no guard, so a push event carrying no payload (`event.data`
is null) throws before `showNotification` is reached; when a payload is
present, `data.title` and `data.body` are passed through unchanged
(`undefined` when the field is absent — no default is substituted). -/
def pushHandler (eventData : Option PushPayload) : Except Unit NotificationShown :=
  match eventData with
  | none => .error ()
  | some data =>
    .ok { title := data.title
          body := data.body
          icon := strOf "/icon-192.png"
          badge := strOf "/icon-192.png"
          vibrate := [200, 100, 200]
          tag := strOf "reading-hub-notification" }

/-! ## Derived notions used by the claim statements -/

/-- Top-level entry skipped by `generateIndex` because it is a hidden
directory (`entry.isDirectory() && entry.name.startsWith('.')` fails the
loop's guard). -/
def isHiddenDir (e : Entry) : Bool :=
  isDirEntry e && hasLead (strOf ".") (entryName e)

/-- Folder record that one root entry contributes to the index, if any:
only a non-hidden directory with a non-empty `files` array contributes.
(`buildFolders` of a successful run is exactly `filterMap folderOf`.) -/
def folderOf (e : Entry) : Option IndexFolder :=
  match e with
  | .file _ _ => none
  | .dir name _ children =>
    if hasLead (strOf ".") name then none
    else
      let files := folderFiles name children
      if files.length > 0 then some { name := name, path := name, files := files }
      else none

/-- Directory entry directly containing at least one file (a real file, not
a subdirectory) whose name ends in `.md` — the reading of claim C3. -/
def hasMdFileChild (e : Entry) : Bool :=
  match e with
  | .file _ _ => false
  | .dir _ _ children =>
    children.any (fun c =>
      match c with
      | .file n _ => hasTail (strOf ".md") n
      | .dir _ _ _ => false)

/-- Directory entry directly containing at least one entry — file or
subdirectory — whose name ends in `.md` (what the code actually tests:
`readdirSync` without file types, filtered by `endsWith('.md')`). -/
def hasMdEntryChild (e : Entry) : Bool :=
  match e with
  | .file _ _ => false
  | .dir _ _ children => children.any (fun c => hasTail (strOf ".md") (entryName c))

/-- Erase everything two levels below the content root from an entry one
level below it: a grandchild directory keeps only its name.  Claim C4 says
`generateIndex` never looks deeper, so this cannot change its output. -/
def pruneGrandchild : Entry → Entry
  | .file n c => .file n c
  | .dir n _ _ => .dir n false []

/-- Erase everything below the first level under a top-level entry. -/
def pruneTop : Entry → Entry
  | .file n c => .file n c
  | .dir n broken children => .dir n broken (children.map pruneGrandchild)

/-! ## Theorems -/

theorem mem_insertBy (r : α → α → Bool) (a b : α) (l : List α) :
    b ∈ insertBy r a l ↔ b = a ∨ b ∈ l := by
  induction l with
  | nil => simp [insertBy]
  | cons c l ih =>
    by_cases h : r a c = true
    · simp [insertBy, h]
    · simp only [insertBy, h, if_neg, Bool.false_eq_true, if_false, List.mem_cons, ih]
      tauto

theorem mem_sortBy (r : α → α → Bool) (b : α) (l : List α) :
    b ∈ sortBy r l ↔ b ∈ l := by
  induction l with
  | nil => simp [sortBy]
  | cons a l ih => simp [sortBy, mem_insertBy, ih]

theorem sortedBy_insertBy (r : α → α → Bool)
    (total : ∀ a b, r a b = true ∨ r b a = true)
    (htrans : ∀ a b c, r a b = true → r b c = true → r a c = true)
    (a : α) (l : List α)
    (h : SortedBy r l) : SortedBy r (insertBy r a l) := by
  induction l with
  | nil => simp [insertBy, SortedBy]
  | cons b l ih =>
    obtain ⟨hb, hl⟩ := List.pairwise_cons.mp h
    by_cases hab : r a b = true
    · simp only [SortedBy, insertBy, if_pos hab]
      refine List.Pairwise.cons ?_ h
      intro c hc
      rcases List.mem_cons.mp hc with rfl | hc
      · exact hab
      · exact htrans a b c hab (hb c hc)
    · simp only [SortedBy, insertBy, if_neg hab]
      refine List.Pairwise.cons ?_ (ih hl)
      intro c hc
      rcases (mem_insertBy r a c l).mp hc with hca | hc
      · rw [hca]
        rcases total a b with h' | h'
        · exact absurd h' hab
        · exact h'
      · exact hb c hc

theorem sortedBy_sortBy (r : α → α → Bool)
    (total : ∀ a b, r a b = true ∨ r b a = true)
    (htrans : ∀ a b c, r a b = true → r b c = true → r a c = true)
    (l : List α) : SortedBy r (sortBy r l) := by
  induction l with
  | nil => exact List.Pairwise.nil
  | cons a l ih => exact sortedBy_insertBy r total htrans a (sortBy r l) ih

/-! ### Order-theoretic facts about the comparators -/

theorem natCmp_swap (m n : Nat) : natCmp m n = (natCmp n m).swap := by
  unfold natCmp
  by_cases h1 : m < n
  · simp [h1, show ¬ n < m by omega]
    decide
  · by_cases h2 : n < m
    · simp [h1, h2]
      decide
    · simp [h1, h2]
      decide

theorem natCmp_le_trans {a b c : Nat} (h1 : natCmp a b ≠ .gt) (h2 : natCmp b c ≠ .gt) :
    natCmp a c ≠ .gt := by
  unfold natCmp at *
  by_cases hab : a < b <;> by_cases hbc : b < c <;> by_cases hac : a < c <;>
    simp_all <;> omega

theorem cmpList_swap (cmp : α → α → Ordering)
    (hsymm : ∀ a b, cmp a b = (cmp b a).swap) :
    ∀ l1 l2 : List α, cmpList cmp l1 l2 = (cmpList cmp l2 l1).swap
  | [], [] => rfl
  | [], _ :: _ => rfl
  | _ :: _, [] => rfl
  | a :: as, b :: bs => by
    simp only [cmpList, hsymm a b]
    cases cmp b a with
    | lt => rfl
    | gt => rfl
    | eq => exact cmpList_swap cmp hsymm as bs

theorem cmp_eq_trans (cmp : α → α → Ordering)
    (hsymm : ∀ a b, cmp a b = (cmp b a).swap)
    (htr : ∀ a b c, cmp a b ≠ .gt → cmp b c ≠ .gt → cmp a c ≠ .gt)
    {a b c : α} (h1 : cmp a b = .eq) (h2 : cmp b c = .eq) : cmp a c = .eq := by
  have hac : cmp a c ≠ .gt := htr a b c (by simp [h1]) (by simp [h2])
  have hca : cmp c a ≠ .gt := by
    refine htr c b a ?_ ?_
    · rw [hsymm c b, h2]; decide
    · rw [hsymm b a, h1]; decide
  cases h : cmp a c with
  | eq => rfl
  | gt => exact absurd h hac
  | lt => exact absurd (by rw [hsymm c a, h]; rfl) hca

theorem cmp_le_lt_trans (cmp : α → α → Ordering)
    (hsymm : ∀ a b, cmp a b = (cmp b a).swap)
    (htr : ∀ a b c, cmp a b ≠ .gt → cmp b c ≠ .gt → cmp a c ≠ .gt)
    {a b c : α} (h1 : cmp a b ≠ .gt) (h2 : cmp b c = .lt) : cmp a c = .lt := by
  by_contra hne
  have hca : cmp c a ≠ .gt := by
    rw [hsymm c a]
    cases hac : cmp a c with
    | lt => exact absurd hac hne
    | eq => decide
    | gt => decide
  have hcb : cmp c b ≠ .gt := htr c a b hca h1
  rw [hsymm c b, h2] at hcb
  exact hcb rfl

theorem cmp_lt_le_trans (cmp : α → α → Ordering)
    (hsymm : ∀ a b, cmp a b = (cmp b a).swap)
    (htr : ∀ a b c, cmp a b ≠ .gt → cmp b c ≠ .gt → cmp a c ≠ .gt)
    {a b c : α} (h1 : cmp a b = .lt) (h2 : cmp b c ≠ .gt) : cmp a c = .lt := by
  by_contra hne
  have hca : cmp c a ≠ .gt := by
    rw [hsymm c a]
    cases hac : cmp a c with
    | lt => exact absurd hac hne
    | eq => decide
    | gt => decide
  have hba : cmp b a ≠ .gt := htr b c a h2 hca
  have : cmp b a = .gt := by rw [hsymm b a, h1]; rfl
  exact hba this

theorem cmpList_le_trans (cmp : α → α → Ordering)
    (hsymm : ∀ a b, cmp a b = (cmp b a).swap)
    (htr : ∀ a b c, cmp a b ≠ .gt → cmp b c ≠ .gt → cmp a c ≠ .gt) :
    ∀ l1 l2 l3 : List α, cmpList cmp l1 l2 ≠ .gt → cmpList cmp l2 l3 ≠ .gt →
      cmpList cmp l1 l3 ≠ .gt
  | [], l2, l3, _, _ => by cases l3 <;> simp [cmpList]
  | _ :: _, [], _, h1, _ => by simp [cmpList] at h1
  | _ :: _, _ :: _, [], _, h2 => by simp [cmpList] at h2
  | a :: as, b :: bs, c :: cs, h1, h2 => by
    simp only [cmpList] at h1 h2 ⊢
    cases ho1 : cmp a b with
    | gt => rw [ho1] at h1; simp at h1
    | lt =>
      cases ho2 : cmp b c with
      | gt => rw [ho2] at h2; simp at h2
      | lt =>
        have : cmp a c = .lt := cmp_lt_le_trans cmp hsymm htr ho1 (by simp [ho2])
        simp [this]
      | eq =>
        have : cmp a c = .lt := cmp_lt_le_trans cmp hsymm htr ho1 (by simp [ho2])
        simp [this]
    | eq =>
      cases ho2 : cmp b c with
      | gt => rw [ho2] at h2; simp at h2
      | lt =>
        have : cmp a c = .lt := cmp_le_lt_trans cmp hsymm htr (by simp [ho1]) ho2
        simp [this]
      | eq =>
        have hac : cmp a c = .eq := cmp_eq_trans cmp hsymm htr ho1 ho2
        rw [ho1] at h1
        rw [ho2] at h2
        simp only [hac]
        exact cmpList_le_trans cmp hsymm htr as bs cs h1 h2

theorem charCmp_swap (c d : Char) : charCmp c d = (charCmp d c).swap :=
  natCmp_swap _ _

theorem charCmp_le_trans {a b c : Char} (h1 : charCmp a b ≠ .gt)
    (h2 : charCmp b c ≠ .gt) : charCmp a c ≠ .gt :=
  natCmp_le_trans h1 h2

theorem tokCmp_swap (s t : NatTok) : tokCmp s t = (tokCmp t s).swap := by
  cases s <;> cases t
  · exact natCmp_swap _ _
  · rfl
  · rfl
  · exact natCmp_swap _ _

theorem tokCmp_le_trans {s t u : NatTok} (h1 : tokCmp s t ≠ .gt)
    (h2 : tokCmp t u ≠ .gt) : tokCmp s u ≠ .gt := by
  cases s <;> cases t <;> cases u
  · exact natCmp_le_trans h1 h2
  · simp [tokCmp]
  · exact absurd rfl h2
  · simp [tokCmp]
  · exact absurd rfl h1
  · exact absurd rfl h1
  · exact absurd rfl h2
  · exact natCmp_le_trans h1 h2

theorem lexCmp_swap (a b : Str) : lexCmp a b = (lexCmp b a).swap :=
  cmpList_swap charCmp charCmp_swap a b

theorem lexCmp_le_trans {a b c : Str} (h1 : lexCmp a b ≠ .gt)
    (h2 : lexCmp b c ≠ .gt) : lexCmp a c ≠ .gt :=
  cmpList_le_trans charCmp charCmp_swap (fun _ _ _ => charCmp_le_trans) a b c h1 h2

theorem naturalSort_swap (a b : Str) : naturalSort a b = (naturalSort b a).swap :=
  cmpList_swap tokCmp tokCmp_swap _ _

theorem naturalSort_le_trans {a b c : Str} (h1 : naturalSort a b ≠ .gt)
    (h2 : naturalSort b c ≠ .gt) : naturalSort a c ≠ .gt :=
  cmpList_le_trans tokCmp tokCmp_swap (fun _ _ _ => tokCmp_le_trans) _ _ _ h1 h2

theorem cmpLe_total (cmp : α → α → Ordering)
    (hsymm : ∀ a b, cmp a b = (cmp b a).swap) (a b : α) :
    cmpLe cmp a b = true ∨ cmpLe cmp b a = true := by
  unfold cmpLe
  cases h : cmp a b with
  | gt =>
    right
    rw [hsymm b a, h]
    rfl
  | lt => left; rfl
  | eq => left; rfl

theorem cmpLe_trans (cmp : α → α → Ordering)
    (htr : ∀ a b c, cmp a b ≠ .gt → cmp b c ≠ .gt → cmp a c ≠ .gt)
    (a b c : α) (h1 : cmpLe cmp a b = true) (h2 : cmpLe cmp b c = true) :
    cmpLe cmp a c = true := by
  unfold cmpLe at *
  have h1' : cmp a b ≠ .gt := by cases h : cmp a b <;> simp_all
  have h2' : cmp b c ≠ .gt := by cases h : cmp b c <;> simp_all
  have := htr a b c h1' h2'
  cases h : cmp a c <;> simp_all

/-! ## Claim theorems -/

/-- C5, counterexample: the claim says the push handler tolerates an absent
payload by substituting defaults and still displays a notification.  In the
code, `event.data.json()` is evaluated unguarded, so a push event carrying
no payload throws before `showNotification` runs: no notification is
displayed and the handler fails. -/
theorem pushHandler_no_payload_fails : pushHandler none = Except.error () := rfl

/-- C5, amended: the push handler requires a payload — a push event with no
payload makes `event.data.json()` throw and no notification is shown; when
a payload is present a notification is always shown, with the payload's
`title` and `body` fields passed through unchanged (absent fields stay
`undefined`; no default is substituted). -/
theorem pushHandler_passthrough :
    pushHandler none = Except.error () ∧
    ∀ data : PushPayload,
      pushHandler (some data) =
        Except.ok
          { title := data.title
            body := data.body
            icon := strOf "/icon-192.png"
            badge := strOf "/icon-192.png"
            vibrate := [200, 100, 200]
            tag := strOf "reading-hub-notification" } :=
  ⟨rfl, fun _ => rfl⟩

/-- C6: for a same-origin GET request with no cached entry whose network
fetch fails, the fetch handler responds with the cached `/index.html`
application shell when the request's destination is `document`, and
resolves to no response at all (the unhandled-rejection case, no offline
placeholder) for any other destination. -/
theorem fetchHandler_offline_fallback (origin : Str) (cache : Cache)
    (req : Request) (shell : Response)
    (hget : req.method = strOf "GET")
    (hsame : hasLead origin req.url = true)
    (hmiss : cacheMatch cache req.url = none)
    (hshell : cacheMatch cache (strOf "/index.html") = some shell) :
    (req.destination = strOf "document" →
      (fetchHandler origin cache req .fail).fst = .responded (some shell)) ∧
    (req.destination ≠ strOf "document" →
      (fetchHandler origin cache req .fail).fst = .responded none) := by
  constructor
  · intro hdoc
    simp [fetchHandler, hget, hsame, hmiss, hdoc, hshell]
  · intro hdoc
    simp [fetchHandler, hget, hsame, hmiss, hdoc]

/-- C6, witness at a concrete request and cache. -/
theorem fetchHandler_offline_fallback_witness :
    (fetchHandler (strOf "https://h.test") [(strOf "/index.html", ⟨200, strOf "basic"⟩)]
      ⟨strOf "GET", strOf "https://h.test/content/java/01-intro.md", strOf "document"⟩
      .fail).fst = .responded (some ⟨200, strOf "basic"⟩) ∧
    (fetchHandler (strOf "https://h.test") [(strOf "/index.html", ⟨200, strOf "basic"⟩)]
      ⟨strOf "GET", strOf "https://h.test/style.css", strOf "style"⟩
      .fail).fst = .responded none := by
  constructor
  · exact (fetchHandler_offline_fallback (strOf "https://h.test")
      [(strOf "/index.html", ⟨200, strOf "basic"⟩)]
      ⟨strOf "GET", strOf "https://h.test/content/java/01-intro.md", strOf "document"⟩
      ⟨200, strOf "basic"⟩ (by decide) (by decide) (by decide) (by decide)).1 (by decide)
  · exact (fetchHandler_offline_fallback (strOf "https://h.test")
      [(strOf "/index.html", ⟨200, strOf "basic"⟩)]
      ⟨strOf "GET", strOf "https://h.test/style.css", strOf "style"⟩
      ⟨200, strOf "basic"⟩ (by decide) (by decide) (by decide) (by decide)).2 (by decide)

/-- C7, counterexample: the claim asserts that after activation exactly one
cache generation remains for every possible starting set of cache store
names.  Starting from the set containing only `reading-hub-v0.9`, the
handler deletes that store and creates nothing, so zero stores remain. -/
theorem activateHandler_can_leave_zero :
    activateHandler [strOf "reading-hub-v0.9"] = [] ∧
    (activateHandler [strOf "reading-hub-v0.9"]).length ≠ 1 := by
  constructor
  · decide
  · decide

/-- C7, amended: after the activate handler completes, at most one cache
generation remains: every store whose name differs from
`reading-hub-v1.0` has been deleted, and whenever the current version's
store was present at activation (as it is after a successful install),
exactly it remains. -/
theorem activateHandler_purges_old (names : List Str) (hnodup : names.Nodup) :
    (∀ n ∈ activateHandler names, n = CACHE_NAME) ∧
    (∀ n ∈ names, n ≠ CACHE_NAME → n ∉ activateHandler names) ∧
    (CACHE_NAME ∈ names → activateHandler names = [CACHE_NAME]) := by
  refine ⟨?_, ?_, ?_⟩
  · intro n hn
    have := List.mem_filter.mp hn
    exact eq_of_beq this.2
  · intro n _ hne hmem
    have := List.mem_filter.mp hmem
    exact hne (eq_of_beq this.2)
  · intro hmem
    induction names with
    | nil => cases hmem
    | cons a l ih =>
      obtain ⟨hal, hl⟩ := List.nodup_cons.mp hnodup
      rcases List.mem_cons.mp hmem with rfl | hmem'
      · have hnil : l.filter (fun cacheName => cacheName == CACHE_NAME) = [] := by
          rw [List.filter_eq_nil_iff]
          intro x hx
          simp only [beq_iff_eq]
          intro hcontra
          exact hal (hcontra ▸ hx)
        simp [activateHandler, hnil]
      · have ha : (a == CACHE_NAME) = false := by
          by_cases h : a = CACHE_NAME
          · exact absurd (h ▸ hmem') hal
          · simpa using h
        simpa [activateHandler, ha] using ih hl hmem'

/-- C7, witness: a concrete starting set with an old and the current
generation keeps exactly the current one. -/
theorem activateHandler_purges_old_witness :
    activateHandler [strOf "reading-hub-v0.9", strOf "reading-hub-v1.0"]
      = [strOf "reading-hub-v1.0"] :=
  (activateHandler_purges_old [strOf "reading-hub-v0.9", strOf "reading-hub-v1.0"]
    (by decide)).2.2 (by decide)

/-- Relation between the title-scanning loop and `List.find?`: the loop
returns the processed form of the first line whose trimmed form starts
with `"# "`, and `none` exactly when no line qualifies. -/
theorem findTitle_eq_find (lines : List Str) :
    findTitle lines =
      (lines.find? (fun l => hasLead (strOf "# ") (trimStr l))).map
        (fun l => trimStr ((trimStr l).drop 2)) := by
  induction lines with
  | nil => rfl
  | cons line rest ih =>
    by_cases h : hasLead (strOf "# ") (trimStr line) = true
    · simp [findTitle, List.find?, h]
    · simp only [Bool.not_eq_true] at h
      simp [findTitle, List.find?, h, ih]

/-- C1: for a Markdown file (base name ending in `.md`), the extracted
title is the trimmed remainder after the two-character `"# "` prefix of the
first line that, once trimmed, starts with `"# "` — the scan stops at that
first match regardless of surrounding content — and when no line qualifies
the title is the file name with its `.md` extension removed. -/
theorem extractTitle_spec (content p name : Str)
    (hbase : baseName p = name)
    (hmd : hasTail (strOf ".md") name = true)
    (hext : name ≠ strOf ".md") :
    (∀ line,
      (splitNl content).find? (fun l => hasLead (strOf "# ") (trimStr l)) = some line →
      extractTitle (some content) p = trimStr ((trimStr line).drop 2)) ∧
    ((splitNl content).find? (fun l => hasLead (strOf "# ") (trimStr l)) = none →
      extractTitle (some content) p = name.take (name.length - 3)) := by
  constructor
  · intro line hline
    simp [extractTitle, findTitle_eq_find, hline]
  · intro hnone
    have hlen : (strOf ".md").length = 3 := rfl
    simp [extractTitle, findTitle_eq_find, hnone, baseNameExt, hbase, hext, hmd, hlen]

/-- C1, witness: a file whose first qualifying heading line sits between
other content, and a headingless file falling back to the file name. -/
theorem extractTitle_spec_witness :
    (extractTitle (some (strOf "intro\n  # My Title  \n# Second")) (strOf "java/01-intro.md")
        = trimStr ((trimStr (strOf "  # My Title  ")).drop 2) ∧
      trimStr ((trimStr (strOf "  # My Title  ")).drop 2) = strOf "My Title") ∧
    extractTitle (some (strOf "## deeper only\nplain")) (strOf "java/01-intro.md")
      = strOf "01-intro" := by
  refine ⟨⟨?_, by decide⟩, ?_⟩
  · exact (extractTitle_spec (strOf "intro\n  # My Title  \n# Second")
      (strOf "java/01-intro.md") (strOf "01-intro.md")
      (by decide) (by decide) (by decide)).1 (strOf "  # My Title  ") (by decide)
  · exact ((extractTitle_spec (strOf "## deeper only\nplain")
      (strOf "java/01-intro.md") (strOf "01-intro.md")
      (by decide) (by decide) (by decide)).2 (by decide)).trans (by decide)

/-- C8, counterexample: the claim says that when a file cannot be read,
`extractTitle` returns the base file name without its extension.  The code
calls `path.basename(filePath, '.md')`, which removes only a `.md` suffix:
for an unreadable file named `draft.txt` the returned title is
`draft.txt`, extension still attached, not `draft`. -/
theorem extractTitle_error_keeps_ext :
    extractTitle none (strOf "notes/draft.txt") = strOf "draft.txt" ∧
    extractTitle none (strOf "notes/draft.txt") ≠ strOf "draft" := by
  constructor
  · decide
  · decide

/-- C8, amended: `extractTitle` never propagates a read failure — it is a
total function into strings — and on a failed read it returns the base
file name with a trailing `.md` extension removed when the base name ends
in `.md` (and is not `.md` itself); base names with any other extension
are returned unchanged. -/
theorem extractTitle_error_fallback (p : Str) :
    (hasTail (strOf ".md") (baseName p) = true → baseName p ≠ strOf ".md" →
      extractTitle none p = (baseName p).take ((baseName p).length - 3)) ∧
    (hasTail (strOf ".md") (baseName p) = false →
      extractTitle none p = baseName p) := by
  constructor
  · intro hmd hne
    have hlen : (strOf ".md").length = 3 := rfl
    simp [extractTitle, baseNameExt, hmd, hne, hlen]
  · intro hmd
    simp [extractTitle, baseNameExt, hmd]

/-- C8, witness: the amended fallback at two concrete unreadable paths. -/
theorem extractTitle_error_fallback_witness :
    extractTitle none (strOf "java/01-intro.md") = strOf "01-intro" ∧
    extractTitle none (strOf "notes/todo.org") = strOf "todo.org" := by
  constructor
  · exact ((extractTitle_error_fallback (strOf "java/01-intro.md")).1
      (by decide) (by decide)).trans (by decide)
  · exact ((extractTitle_error_fallback (strOf "notes/todo.org")).2
      (by decide)).trans (by decide)

/-! ### Supporting lemmas about the indexer -/

theorem length_insertBy (r : α → α → Bool) (a : α) (l : List α) :
    (insertBy r a l).length = l.length + 1 := by
  induction l with
  | nil => rfl
  | cons b l ih => by_cases h : r a b = true <;> simp [insertBy, h, ih]

theorem length_sortBy (r : α → α → Bool) (l : List α) :
    (sortBy r l).length = l.length := by
  induction l with
  | nil => rfl
  | cons a l ih => simp [sortBy, length_insertBy, ih]

/-- Names of a folder's file records are exactly the naturally sorted
filtered directory listing. -/
theorem folderFiles_names (n : Str) (ch : List Entry) :
    (folderFiles n ch).map IndexEntry.name
      = sortBy (cmpLe naturalSort)
          ((ch.map entryName).filter (fun s => hasTail (strOf ".md") s)) := by
  simp only [folderFiles, List.map_map]
  exact List.map_id _

/-- Every file record of a folder names a direct child of that folder and
carries the one-level path `folder/file`. -/
theorem mem_folderFiles {n : Str} {ch : List Entry} {fe : IndexEntry}
    (hfe : fe ∈ folderFiles n ch) :
    fe.name ∈ ch.map entryName ∧ hasTail (strOf ".md") fe.name = true ∧
      fe.path = n ++ '/' :: fe.name := by
  simp only [folderFiles] at hfe
  rcases List.mem_map.mp hfe with ⟨file, hfile, rfl⟩
  have hmem := (mem_sortBy _ _ _).mp hfile
  have hfilter := List.mem_filter.mp hmem
  exact ⟨hfilter.1, hfilter.2, rfl⟩

/-- A folder has file records exactly when some direct child entry's name
ends in `.md`. -/
theorem folderFiles_pos_iff (n : Str) (ch : List Entry) :
    0 < (folderFiles n ch).length ↔
      (ch.any fun c => hasTail (strOf ".md") (entryName c)) = true := by
  have hlen : (folderFiles n ch).length
      = ((ch.map entryName).filter (fun s => hasTail (strOf ".md") s)).length := by
    simp [folderFiles, length_sortBy]
  rw [hlen, List.length_pos_iff_exists_mem]
  constructor
  · rintro ⟨a, ha⟩
    have h := List.mem_filter.mp ha
    rcases List.mem_map.mp h.1 with ⟨c, hc, rfl⟩
    exact List.any_eq_true.mpr ⟨c, hc, h.2⟩
  · intro hany
    rcases List.any_eq_true.mp hany with ⟨c, hc, hmd⟩
    exact ⟨entryName c, List.mem_filter.mpr ⟨List.mem_map_of_mem entryName hc, hmd⟩⟩

/-- The folder list of a successful scan is the `filterMap` of the per-entry
contribution over the root entries, in root listing order. -/
theorem buildFolders_ok_eq (entries : List Entry) :
    ∀ folders, buildFolders entries = .ok folders →
      folders = entries.filterMap folderOf := by
  induction entries with
  | nil =>
    intro folders h
    simp only [buildFolders, Except.ok.injEq] at h
    simp [← h]
  | cons e rest ih =>
    intro folders h
    cases e with
    | file n c =>
      simp only [buildFolders] at h
      simpa [List.filterMap_cons, folderOf] using ih folders h
    | dir n broken ch =>
      by_cases hh : hasLead (strOf ".") n = true
      · simp only [buildFolders, hh, if_true] at h
        simpa [List.filterMap_cons, folderOf, hh] using ih folders h
      · rw [Bool.not_eq_true] at hh
        cases broken with
        | true => simp [buildFolders, hh] at h
        | false =>
          simp only [buildFolders, hh, Bool.false_eq_true, if_false] at h
          cases hrest : buildFolders rest with
          | error e' => rw [hrest] at h; simp at h
          | ok folders' =>
            rw [hrest] at h
            simp only at h
            by_cases hpos : 0 < (folderFiles n ch).length
            · rw [if_pos hpos] at h
              injection h with h2
              rw [← h2]
              simp [List.filterMap_cons, folderOf, hh, hpos, ih folders' hrest]
            · rw [if_neg hpos] at h
              injection h with h2
              rw [← h2]
              simp [List.filterMap_cons, folderOf, hh, hpos, ih folders' hrest]

/-- Shape of a root entry's contribution: what `folderOf e = some f`
implies about `e` and `f`. -/
theorem folderOf_some {e : Entry} {f : IndexFolder} (h : folderOf e = some f) :
    ∃ n b ch, e = .dir n b ch ∧ hasLead (strOf ".") n = false ∧
      0 < (folderFiles n ch).length ∧
      f = { name := n, path := n, files := folderFiles n ch } := by
  cases e with
  | file n c => simp [folderOf] at h
  | dir n b ch =>
    by_cases hh : hasLead (strOf ".") n = true
    · simp [folderOf, hh] at h
    · rw [Bool.not_eq_true] at hh
      by_cases hpos : 0 < (folderFiles n ch).length
      · simp only [folderOf, hh, Bool.false_eq_true, if_false, if_pos hpos,
          Option.some.injEq] at h
        exact ⟨n, b, ch, rfl, hh, hpos, h.symm⟩
      · simp [folderOf, hh, hpos] at h

/-- Membership in a successfully generated index in terms of the sorted
`filterMap` representation. -/
theorem generateIndexResult_ok {rootBroken : Bool} {rootEntries : List Entry}
    {idx : List IndexFolder}
    (h : generateIndexResult rootBroken rootEntries = .ok idx) :
    rootBroken = false ∧
      idx = sortBy (fun a b => cmpLe lexCmp a.name b.name)
        (rootEntries.filterMap folderOf) := by
  cases rootBroken with
  | true => simp [generateIndexResult] at h
  | false =>
    refine ⟨rfl, ?_⟩
    simp only [generateIndexResult, Bool.false_eq_true, if_false] at h
    cases hb : buildFolders rootEntries with
    | error e => rw [hb] at h; simp at h
    | ok index =>
      rw [hb] at h
      simp only [Except.ok.injEq] at h
      rw [← h, buildFolders_ok_eq rootEntries index hb]

/-- C2: in any index produced by `generateIndex`, the folder list is sorted
by the folder-name comparator (lexicographic `localeCompare`) and every
folder's file entries are sorted by `naturalSort` (numeric-aware) on the
filename; in particular, a folder holding `f2.md` and `f10.md` lists
`f2.md` before `f10.md`. -/
theorem index_sorted (rootBroken : Bool) (rootEntries : List Entry)
    (idx : List IndexFolder)
    (h : generateIndexResult rootBroken rootEntries = .ok idx) :
    SortedBy (fun a b => cmpLe lexCmp a.name b.name) idx ∧
    (∀ f ∈ idx, SortedBy (cmpLe naturalSort) (f.files.map IndexEntry.name)) ∧
    (generateIndexResult false
        [.dir (strOf "docs") false
          [.file (strOf "f10.md") (some []), .file (strOf "f2.md") (some [])]]).map
      (fun folders => folders.map (fun f => f.files.map IndexEntry.name))
      = .ok [[strOf "f2.md", strOf "f10.md"]] := by
  obtain ⟨-, hidx⟩ := generateIndexResult_ok h
  refine ⟨?_, ?_, rfl⟩
  · rw [hidx]
    exact sortedBy_sortBy (fun a b : IndexFolder => cmpLe lexCmp a.name b.name)
      (fun a b => cmpLe_total lexCmp lexCmp_swap a.name b.name)
      (fun a b c h1 h2 =>
        cmpLe_trans lexCmp (fun _ _ _ hx hy => lexCmp_le_trans hx hy)
          a.name b.name c.name h1 h2) _
  · intro f hf
    rw [hidx] at hf
    have hf' := (mem_sortBy _ _ _).mp hf
    rcases List.mem_filterMap.mp hf' with ⟨e, -, hsome⟩
    rcases folderOf_some hsome with ⟨n, b, ch, -, -, -, rfl⟩
    rw [folderFiles_names]
    exact sortedBy_sortBy (cmpLe naturalSort)
      (fun a b => cmpLe_total naturalSort naturalSort_swap a b)
      (fun a b c h1 h2 =>
        cmpLe_trans naturalSort (fun _ _ _ hx hy => naturalSort_le_trans hx hy)
          a b c h1 h2) _

/-- C2, witness: the sortedness conclusions at a concrete content tree
whose folders arrive out of order and whose filenames need numeric-aware
ordering. -/
theorem index_sorted_witness :
    SortedBy (fun a b : IndexFolder => cmpLe lexCmp a.name b.name)
      [{ name := strOf "a", path := strOf "a",
         files := [⟨strOf "2.md", strOf "a/2.md", strOf "2"⟩,
                   ⟨strOf "10.md", strOf "a/10.md", strOf "10"⟩] },
       { name := strOf "p", path := strOf "p",
         files := [⟨strOf "1.md", strOf "p/1.md", strOf "1"⟩] }] ∧
    SortedBy (cmpLe naturalSort) [strOf "2.md", strOf "10.md"] := by
  have h := index_sorted false
    [.dir (strOf "p") false [.file (strOf "1.md") (some [])],
     .dir (strOf "a") false [.file (strOf "2.md") (some []), .file (strOf "10.md") (some [])]]
    [{ name := strOf "a", path := strOf "a",
       files := [⟨strOf "2.md", strOf "a/2.md", strOf "2"⟩,
                 ⟨strOf "10.md", strOf "a/10.md", strOf "10"⟩] },
     { name := strOf "p", path := strOf "p",
       files := [⟨strOf "1.md", strOf "p/1.md", strOf "1"⟩] }] rfl
  refine ⟨h.1, ?_⟩
  have h2 := h.2.1 _ (List.mem_cons_self _ _)
  simpa using h2

/-- C3, counterexample: the claim says a top-level subdirectory gets a
folder record if and only if it directly contains at least one file named
`*.md`.  Both directions fail on the code: the hidden directory `.h`
contains the file `a.md` but is omitted, and `sub` contains no file at all
(only a subdirectory named `x.md`, which `readdirSync` + `endsWith('.md')`
still counts) yet gets a record. -/
theorem index_folder_iff_cex :
    ¬ (∀ idx, generateIndexResult false
        [.dir (strOf ".h") false [.file (strOf "a.md") (some [])],
         .dir (strOf "sub") false [.dir (strOf "x.md") false []]] = .ok idx →
       ∀ e ∈ [Entry.dir (strOf ".h") false [.file (strOf "a.md") (some [])],
              Entry.dir (strOf "sub") false [.dir (strOf "x.md") false []]],
         isDirEntry e = true →
         ((∃ f ∈ idx, f.name = entryName e) ↔ hasMdFileChild e = true)) := by
  intro hclaim
  have h := hclaim
    [{ name := strOf "sub", path := strOf "sub",
       files := [⟨strOf "x.md", strOf "sub/x.md", strOf "x"⟩] }] rfl
    (Entry.dir (strOf ".h") false [.file (strOf "a.md") (some [])])
    (List.mem_cons_self _ _) rfl
  rcases h.mpr (by decide) with ⟨f, hf, hname⟩
  rw [List.mem_singleton] at hf
  subst hf
  exact absurd hname (by decide)

/-- C3, amended: in an index produced by `generateIndex` over root entries
with distinct names, a top-level subdirectory gets a folder record if and
only if its name does not start with a dot and it directly contains at
least one entry — file or subdirectory — whose name ends in `.md`. -/
theorem index_folder_iff (rootEntries : List Entry) (idx : List IndexFolder)
    (hnodup : (rootEntries.map entryName).Nodup)
    (h : generateIndexResult false rootEntries = .ok idx) :
    ∀ e ∈ rootEntries, isDirEntry e = true →
      ((∃ f ∈ idx, f.name = entryName e) ↔
        (hasLead (strOf ".") (entryName e) = false ∧ hasMdEntryChild e = true)) := by
  obtain ⟨-, hidx⟩ := generateIndexResult_ok h
  intro e hmem hdir
  constructor
  · rintro ⟨f, hf, hname⟩
    rw [hidx] at hf
    have hf' := (mem_sortBy _ _ _).mp hf
    rcases List.mem_filterMap.mp hf' with ⟨e', hmem', hsome⟩
    rcases folderOf_some hsome with ⟨n, b, ch, rfl, hhid, hpos, rfl⟩
    have heq : e = Entry.dir n b ch :=
      List.inj_on_of_nodup_map hnodup hmem hmem'
        (show entryName e = entryName (Entry.dir n b ch) from hname.symm)
    subst heq
    refine ⟨hhid, ?_⟩
    simpa [hasMdEntryChild] using (folderFiles_pos_iff n ch).mp hpos
  · rintro ⟨hhid, hmd⟩
    cases e with
    | file n c => simp [isDirEntry] at hdir
    | dir n b ch =>
      have hhid' : hasLead (strOf ".") n = false := hhid
      have hpos : 0 < (folderFiles n ch).length :=
        (folderFiles_pos_iff n ch).mpr (by simpa [hasMdEntryChild] using hmd)
      refine ⟨{ name := n, path := n, files := folderFiles n ch }, ?_, rfl⟩
      rw [hidx]
      refine (mem_sortBy _ _ _).mpr ?_
      refine List.mem_filterMap.mpr ⟨Entry.dir n b ch, hmem, ?_⟩
      simp [folderOf, hhid', hpos]

/-- C3, witness: the amended equivalence at a concrete tree, giving both a
present and an absent folder. -/
theorem index_folder_iff_witness :
    ((∃ f ∈ [{ name := strOf "sub", path := strOf "sub",
               files := [⟨strOf "x.md", strOf "sub/x.md", strOf "x"⟩] }],
        IndexFolder.name f = strOf "sub") ↔
      (hasLead (strOf ".") (strOf "sub") = false ∧
        hasMdEntryChild (Entry.dir (strOf "sub") false [.dir (strOf "x.md") false []]) = true)) ∧
    ((∃ f ∈ [{ name := strOf "sub", path := strOf "sub",
               files := [⟨strOf "x.md", strOf "sub/x.md", strOf "x"⟩] }],
        IndexFolder.name f = strOf ".h") ↔
      (hasLead (strOf ".") (strOf ".h") = false ∧
        hasMdEntryChild (Entry.dir (strOf ".h") false [.file (strOf "a.md") (some [])]) = true)) := by
  have h := index_folder_iff
    [.dir (strOf ".h") false [.file (strOf "a.md") (some [])],
     .dir (strOf "sub") false [.dir (strOf "x.md") false []]]
    [{ name := strOf "sub", path := strOf "sub",
       files := [⟨strOf "x.md", strOf "sub/x.md", strOf "x"⟩] }]
    (by decide) rfl
  constructor
  · exact h (Entry.dir (strOf "sub") false [.dir (strOf "x.md") false []])
      (List.mem_cons_of_mem _ (List.mem_cons_self _ _)) rfl
  · exact h (Entry.dir (strOf ".h") false [.file (strOf "a.md") (some [])])
      (List.mem_cons_self _ _) rfl

/-- Removing hidden top-level directories does not change the scan: the
loop guard skips them. -/
theorem buildFolders_filter_hidden (l : List Entry) :
    buildFolders (l.filter (fun e => !isHiddenDir e)) = buildFolders l := by
  induction l with
  | nil => rfl
  | cons e rest ih =>
    cases e with
    | file n c =>
      have hp : (!isHiddenDir (Entry.file n c)) = true := rfl
      rw [List.filter_cons, if_pos hp]
      simpa [buildFolders] using ih
    | dir n b ch =>
      by_cases hh : hasLead (strOf ".") n = true
      · have hp : (!isHiddenDir (Entry.dir n b ch)) = false := by
          simp [isHiddenDir, isDirEntry, entryName, hh]
        rw [List.filter_cons, if_neg (by simp [hp])]
        rw [ih]
        simp [buildFolders, hh]
      · rw [Bool.not_eq_true] at hh
        have hp : (!isHiddenDir (Entry.dir n b ch)) = true := by
          simp [isHiddenDir, isDirEntry, entryName, hh]
        rw [List.filter_cons, if_pos hp]
        cases b with
        | true => simp [buildFolders, hh]
        | false => simp [buildFolders, hh, ih]

theorem entryName_pruneGrandchild (e : Entry) :
    entryName (pruneGrandchild e) = entryName e := by
  cases e <;> rfl

/-- Reading a file by name only looks at the entry's kind and content, both
preserved one level down by the pruning. -/
theorem readFileIn_prune (ch : List Entry) (name : Str) :
    readFileIn (ch.map pruneGrandchild) name = readFileIn ch name := by
  induction ch with
  | nil => rfl
  | cons c rest ih =>
    cases c with
    | file n cc =>
      by_cases hb : (n == name) = true
      · simp [readFileIn, List.find?, pruneGrandchild, entryName, hb]
      · rw [Bool.not_eq_true] at hb
        simpa [readFileIn, List.find?, pruneGrandchild, entryName, hb] using ih
    | dir n b gch =>
      by_cases hb : (n == name) = true
      · simp [readFileIn, List.find?, pruneGrandchild, entryName, hb]
      · rw [Bool.not_eq_true] at hb
        simpa [readFileIn, List.find?, pruneGrandchild, entryName, hb] using ih

/-- A folder's file records only depend on the first level below it. -/
theorem folderFiles_prune (n : Str) (ch : List Entry) :
    folderFiles n (ch.map pruneGrandchild) = folderFiles n ch := by
  have hnames : (ch.map pruneGrandchild).map entryName = ch.map entryName := by
    rw [List.map_map]
    exact List.map_congr_left (fun a _ => entryName_pruneGrandchild a)
  simp [folderFiles, hnames, readFileIn_prune]

/-- The scan only depends on the first level below each top-level folder. -/
theorem buildFolders_prune (l : List Entry) :
    buildFolders (l.map pruneTop) = buildFolders l := by
  induction l with
  | nil => rfl
  | cons e rest ih =>
    cases e with
    | file n c => simp [pruneTop, buildFolders, ih]
    | dir n b ch =>
      by_cases hh : hasLead (strOf ".") n = true
      · simp [pruneTop, buildFolders, hh, ih]
      · rw [Bool.not_eq_true] at hh
        cases b with
        | true => simp [pruneTop, buildFolders, hh]
        | false => simp [pruneTop, buildFolders, hh, ih, folderFiles_prune]

/-- C4: `generateIndex` never invokes the recursive helper and descends
exactly one level below the content root: removing hidden top-level
directories leaves its result unchanged, erasing everything two levels
down (grandchild directories keep only their names) leaves its result
unchanged, and every file record of a produced index names a direct child
of a top-level directory, with the one-level path `folder/file`. -/
theorem index_depth_one (rootBroken : Bool) (rootEntries : List Entry) :
    generateIndexResult rootBroken (rootEntries.filter (fun e => !isHiddenDir e))
      = generateIndexResult rootBroken rootEntries ∧
    generateIndexResult rootBroken (rootEntries.map pruneTop)
      = generateIndexResult rootBroken rootEntries ∧
    (∀ idx, generateIndexResult rootBroken rootEntries = .ok idx →
      ∀ f ∈ idx, ∀ fe ∈ f.files,
        ∃ b children, Entry.dir f.name b children ∈ rootEntries ∧
          fe.name ∈ children.map entryName ∧
          fe.path = f.name ++ '/' :: fe.name) := by
  refine ⟨?_, ?_, ?_⟩
  · cases rootBroken <;> simp [generateIndexResult, buildFolders_filter_hidden]
  · cases rootBroken <;> simp [generateIndexResult, buildFolders_prune]
  · intro idx h f hf fe hfe
    obtain ⟨-, hidx⟩ := generateIndexResult_ok h
    rw [hidx] at hf
    rcases List.mem_filterMap.mp ((mem_sortBy _ _ _).mp hf) with ⟨e, hmem, hsome⟩
    rcases folderOf_some hsome with ⟨n, b, ch, rfl, -, -, rfl⟩
    obtain ⟨hname, -, hpath⟩ := mem_folderFiles hfe
    exact ⟨b, ch, hmem, hname, hpath⟩

/-- C4, witness: the one-level path property at a concrete tree. -/
theorem index_depth_one_witness :
    ∃ b children,
      Entry.dir (strOf "sub") b children ∈
        [Entry.dir (strOf ".h") false [.file (strOf "a.md") (some [])],
         Entry.dir (strOf "sub") false [.dir (strOf "x.md") false []]] ∧
      strOf "x.md" ∈ children.map entryName ∧
      strOf "sub/x.md" = strOf "sub" ++ '/' :: strOf "x.md" :=
  (index_depth_one false
    [Entry.dir (strOf ".h") false [.file (strOf "a.md") (some [])],
     Entry.dir (strOf "sub") false [.dir (strOf "x.md") false []]]).2.2
    [{ name := strOf "sub", path := strOf "sub",
       files := [⟨strOf "x.md", strOf "sub/x.md", strOf "x"⟩] }] rfl
    { name := strOf "sub", path := strOf "sub",
      files := [⟨strOf "x.md", strOf "sub/x.md", strOf "x"⟩] }
    (List.mem_cons_self _ _)
    ⟨strOf "x.md", strOf "sub/x.md", strOf "x"⟩ (List.mem_cons_self _ _)

/-- Appending a plain file at the end of the root listing does not change
the scan: only directories are processed. -/
theorem buildFolders_append_file (l : List Entry) (n : Str) (c : Option Str) :
    buildFolders (l ++ [.file n c]) = buildFolders l := by
  induction l with
  | nil => rfl
  | cons e rest ih =>
    cases e with
    | file m cc => simpa [buildFolders] using ih
    | dir m b ch =>
      by_cases hh : hasLead (strOf ".") m = true
      · simpa [buildFolders, hh] using ih
      · rw [Bool.not_eq_true] at hh
        cases b with
        | true => simp [buildFolders, hh]
        | false => simp [buildFolders, hh, ih]

/-- Rewriting top-level files in place (keeping names) and leaving
directories untouched does not change the scan. -/
theorem buildFolders_map_files (g : Entry → Entry)
    (hfile : ∀ n c, ∃ c2, g (.file n c) = .file n c2)
    (hdir : ∀ n b ch, g (.dir n b ch) = .dir n b ch)
    (l : List Entry) :
    buildFolders (l.map g) = buildFolders l := by
  induction l with
  | nil => rfl
  | cons e rest ih =>
    cases e with
    | file n c =>
      rcases hfile n c with ⟨c2, hg⟩
      rw [List.map_cons, hg]
      simpa [buildFolders] using ih
    | dir n b ch =>
      rw [List.map_cons, hdir n b ch]
      by_cases hh : hasLead (strOf ".") n = true
      · simpa [buildFolders, hh] using ih
      · rw [Bool.not_eq_true] at hh
        cases b with
        | true => simp [buildFolders, hh]
        | false => simp [buildFolders, hh, ih]

/-- Writing `index.json` at the top level of the content root does not
change the scan. -/
theorem buildFolders_writeIndex (l : List Entry) (s : Str) :
    buildFolders (writeIndexFile l s) = buildFolders l := by
  unfold writeIndexFile
  by_cases hany : (l.any (fun e => entryName e == strOf "index.json")) = true
  · rw [if_pos hany]
    refine buildFolders_map_files _ ?_ ?_ l
    · intro n c
      by_cases hn : (n == strOf "index.json") = true
      · exact ⟨some s, by simp [entryName, hn]⟩
      · rw [Bool.not_eq_true] at hn
        exact ⟨c, by simp [entryName, hn]⟩
    · intro n b ch
      by_cases hn : (n == strOf "index.json") = true
      · simp [entryName, hn]
      · rw [Bool.not_eq_true] at hn
        simp [entryName, hn]
  · rw [if_neg hany]
    exact buildFolders_append_file l _ _

/-- C9: running the indexer a second time over the unchanged content tree
left by a first successful run — identical folders, plus the `index.json`
the first run wrote at the top level of the content root — produces the
same index and byte-identical serialized output: the scan only processes
top-level directories, so the written file cannot influence it.  The
hypothesis that no top-level directory is named `index.json` keeps the
model of the write honest (`writeFileSync` cannot overwrite a directory). -/
theorem index_idempotent (rootEntries : List Entry) (idx : List IndexFolder)
    (_hnodir : ∀ e ∈ rootEntries, entryName e = strOf "index.json" →
      isDirEntry e = false)
    (h : generateIndexResult false rootEntries = .ok idx) :
    generateIndexResult false (writeIndexFile rootEntries (serializeIndex idx))
      = .ok idx ∧
    (runGenerateIndex false (writeIndexFile rootEntries (serializeIndex idx))).written
      = (runGenerateIndex false rootEntries).written := by
  have hb : generateIndexResult false (writeIndexFile rootEntries (serializeIndex idx))
      = generateIndexResult false rootEntries := by
    simp [generateIndexResult, buildFolders_writeIndex]
  exact ⟨hb.trans h, by simp [runGenerateIndex, hb]⟩

/-- C9, witness: a second run over the tree written by a concrete first run
returns the same index. -/
theorem index_idempotent_witness :
    generateIndexResult false
      (writeIndexFile
        [Entry.dir (strOf "java") false
          [.file (strOf "01-intro.md") (some (strOf "# Intro"))]]
        (serializeIndex
          [⟨strOf "java", strOf "java",
            [⟨strOf "01-intro.md", strOf "java/01-intro.md", strOf "Intro"⟩]⟩]))
      = .ok [⟨strOf "java", strOf "java",
          [⟨strOf "01-intro.md", strOf "java/01-intro.md", strOf "Intro"⟩]⟩] :=
  (index_idempotent
    [Entry.dir (strOf "java") false
      [.file (strOf "01-intro.md") (some (strOf "# Intro"))]]
    [⟨strOf "java", strOf "java",
      [⟨strOf "01-intro.md", strOf "java/01-intro.md", strOf "Intro"⟩]⟩]
    (by decide) rfl).1

/-- A broken non-hidden top-level directory always aborts the scan. -/
theorem buildFolders_error_of_broken (l : List Entry)
    (hbroken : ∃ e ∈ l, ∃ nm ch, e = Entry.dir nm true ch ∧
      hasLead (strOf ".") nm = false) :
    buildFolders l = .error () := by
  induction l with
  | nil =>
    rcases hbroken with ⟨e, he, -⟩
    cases he
  | cons e rest ih =>
    rcases hbroken with ⟨e', he', nm, ch, rfl, hnm⟩
    rcases List.mem_cons.mp he' with rfl | hmem
    · simp [buildFolders, hnm]
    · have herr : buildFolders rest = .error () := ih ⟨_, hmem, nm, ch, rfl, hnm⟩
      cases e with
      | file n c => simpa [buildFolders] using herr
      | dir n b ch2 =>
        by_cases hh : hasLead (strOf ".") n = true
        · simpa [buildFolders, hh] using herr
        · rw [Bool.not_eq_true] at hh
          cases b with
          | true => simp [buildFolders, hh]
          | false => simp [buildFolders, hh, herr]

/-- C10: if any error is raised during the scanning phase — listing the
content root, or listing any non-hidden top-level subdirectory —
`generateIndex` reaches its top-level catch and exits with code 1 without
ever executing the `writeFileSync(INDEX_FILE, ...)` call, so a pre-existing
`index.json` is left completely unchanged. -/
theorem scan_error_no_write (rootBroken : Bool) (rootEntries : List Entry)
    (prev : Option Str)
    (herr : rootBroken = true ∨
      ∃ e ∈ rootEntries, ∃ nm ch, e = Entry.dir nm true ch ∧
        hasLead (strOf ".") nm = false) :
    runGenerateIndex rootBroken rootEntries = { exitCode := 1, written := none } ∧
    indexFileAfter prev (runGenerateIndex rootBroken rootEntries) = prev := by
  have hres : generateIndexResult rootBroken rootEntries = .error () := by
    rcases herr with rfl | hbroken
    · simp [generateIndexResult]
    · cases rootBroken with
      | true => simp [generateIndexResult]
      | false => simp [generateIndexResult, buildFolders_error_of_broken _ hbroken]
  constructor
  · simp [runGenerateIndex, hres]
  · simp [runGenerateIndex, indexFileAfter, hres]

/-- C10, witness: a tree whose only subdirectory is unlistable leaves a
pre-existing `index.json` as it was, with exit code 1 and no write. -/
theorem scan_error_no_write_witness :
    runGenerateIndex false [Entry.dir (strOf "java") true []]
      = { exitCode := 1, written := none } ∧
    indexFileAfter (some (strOf "[]"))
      (runGenerateIndex false [Entry.dir (strOf "java") true []])
      = some (strOf "[]") :=
  scan_error_no_write false [Entry.dir (strOf "java") true []] (some (strOf "[]"))
    (Or.inr ⟨Entry.dir (strOf "java") true [], List.mem_cons_self _ _,
      strOf "java", [], rfl, by decide⟩)

end ReadingHub
